import Mathlib

/-!
Verification of the hyperbolic-orbit propagator in `simulate_3i_atlas.py`.

The numerical core is embedded over the real numbers: `solve_H` mirrors the
Newton-Raphson solver for the hyperbolic Kepler equation `Mh = e*sinh H - H`
(seed selection, update `H <- H - f/f'`, early break on `|dH| < tol`, silent
return after `maxit` steps), and `mkSample` / `propagate` mirror the per-sample
computation of hyperbolic anomaly, heliocentric distance and perifocal
coordinates performed in `main`.
-/

namespace Atlas

noncomputable section

/-- The residual `f = e * s - H - Mh` from the Newton loop of `solve_H`. -/
def keplerF (Mh e H : ℝ) : ℝ := e * Real.sinh H - H - Mh

/-- The derivative `fp = e * c - 1.0` from the Newton loop of `solve_H`. -/
def keplerFp (e H : ℝ) : ℝ := e * Real.cosh H - 1

/-- The update `dH = -f / fp` from the Newton loop of `solve_H`. -/
def newtonDelta (Mh e H : ℝ) : ℝ := -keplerF Mh e H / keplerFp e H

/-- The assignment `H += dH` from the Newton loop of `solve_H`. -/
def newtonStep (Mh e H : ℝ) : ℝ := H + newtonDelta Mh e H

/-- The initial guess of `solve_H`: `arcsinh(Mh/e)` when `|Mh| > 1`,
else `Mh / (e - 1)`. -/
def initGuess (Mh e : ℝ) : ℝ :=
  if |Mh| > 1 then Real.arsinh (Mh / e) else Mh / (e - 1)

/-- The `for _ in range(maxit)` loop of `solve_H`: each pass computes `dH`,
updates `H`, and breaks as soon as `|dH| < tol`; when the iteration budget is
exhausted the current iterate is returned. -/
def solveIter (Mh e tol : ℝ) : ℕ → ℝ → ℝ
  | 0, H => H
  | n + 1, H =>
    if |newtonDelta Mh e H| < tol then newtonStep Mh e H
    else solveIter Mh e tol n (newtonStep Mh e H)

/-- The function `solve_H(Mh, e, tol, maxit)` from `simulate_3i_atlas.py`. -/
def solve_H (Mh e tol : ℝ) (maxit : ℕ) : ℝ :=
  solveIter Mh e tol maxit (initGuess Mh e)

/-- The solver `solve_H` at its default arguments `tol = 1e-12`,
`maxit = 100`, as called from `main`. -/
def solveHdef (Mh e : ℝ) : ℝ := solve_H Mh e 1e-12 100

/-- The Gauss gravitational constant `k_gauss` from `main`. -/
def k_gauss : ℝ := 0.01720209895

/-- The gravitational parameter `mu = k_gauss ** 2` from `main`. -/
def mu : ℝ := k_gauss ^ 2

/-- The time scale `tau = math.sqrt(abs(a) ** 3 / mu)` from `main`. -/
def tau_of (a mu : ℝ) : ℝ := Real.sqrt (|a| ^ 3 / mu)

/-- One propagated sample: offset, hyperbolic anomaly, heliocentric distance
and perifocal coordinates. -/
structure TrajectorySample where
  t_offset : ℝ
  anomaly : ℝ
  dist : ℝ
  xPeri : ℝ
  yPeri : ℝ

/-- The per-offset computation of `main`: `Mh = t / tau`, `H = solve_H(Mh, e)`,
`r = abs(a * (e*cosh(H) - 1))`, `x = a * (e - cosh(H))`,
`y = a * sqrt(e^2 - 1) * sinh(H)`. -/
def mkSample (a e tau t : ℝ) : TrajectorySample :=
  { t_offset := t
    anomaly := solveHdef (t / tau) e
    dist := |a * (e * Real.cosh (solveHdef (t / tau) e) - 1)|
    xPeri := a * (e - Real.cosh (solveHdef (t / tau) e))
    yPeri := a * Real.sqrt (e ^ 2 - 1) * Real.sinh (solveHdef (t / tau) e) }

/-- The whole time grid is propagated sample by sample, in order. -/
def propagate (a e tau : ℝ) (ts : List ℝ) : List TrajectorySample :=
  ts.map (mkSample a e tau)

/-- The list `times = [T_peri + timedelta(days=dt) for dt in t_days]` from
`main`, with the epoch as a real time coordinate. -/
def absTimes (epoch : ℝ) (ts : List ℝ) : List ℝ := ts.map (fun t => epoch + t)

/-- The heliocentric distance formula of `main` as a function of the anomaly. -/
def rDist (a e H : ℝ) : ℝ := |a * (e * Real.cosh H - 1)|

/- ### Basic unfolding lemmas for the iteration -/

theorem solveIter_zero (Mh e tol H : ℝ) : solveIter Mh e tol 0 H = H := rfl

theorem solveIter_succ (Mh e tol H : ℝ) (n : ℕ) :
    solveIter Mh e tol (n + 1) H =
      if |newtonDelta Mh e H| < tol then newtonStep Mh e H
      else solveIter Mh e tol n (newtonStep Mh e H) := rfl

/- ### The zero case -/

theorem initGuess_zero (e : ℝ) : initGuess 0 e = 0 := by
  simp [initGuess]

theorem newtonDelta_zero_eq (e : ℝ) : newtonDelta 0 e 0 = 0 := by
  simp [newtonDelta, keplerF]

theorem solve_H_zero_eq (e tol : ℝ) (maxit : ℕ) (htol : 0 < tol) :
    solve_H 0 e tol maxit = 0 := by
  cases maxit with
  | zero => simp [solve_H, solveIter, initGuess_zero]
  | succ n =>
    rw [solve_H, initGuess_zero, solveIter_succ, newtonDelta_zero_eq, if_pos]
    · simp [newtonStep, newtonDelta_zero_eq]
    · simpa using htol

/-- C2: for every `e > 1` (and any `tol > 0`, `maxit > 0`), `solve_H 0 e`
returns exactly `0`. -/
theorem solve_H_zero_case (e tol : ℝ) (maxit : ℕ)
    (he : 1 < e) (htol : 0 < tol) (hit : 0 < maxit) :
    solve_H 0 e tol maxit = 0 :=
  solve_H_zero_eq e tol maxit htol

theorem solve_H_zero_case_witness : solve_H 0 2 1e-12 100 = 0 :=
  solve_H_zero_case 2 1e-12 100 (by norm_num) (by norm_num) (by norm_num)

/- ### Oddness in the first argument -/

theorem keplerF_neg (Mh e H : ℝ) : keplerF (-Mh) e (-H) = -keplerF Mh e H := by
  simp only [keplerF, Real.sinh_neg]
  ring

theorem keplerFp_neg (e H : ℝ) : keplerFp e (-H) = keplerFp e H := by
  simp [keplerFp, Real.cosh_neg]

theorem newtonDelta_neg (Mh e H : ℝ) :
    newtonDelta (-Mh) e (-H) = -newtonDelta Mh e H := by
  rw [newtonDelta, newtonDelta, keplerF_neg, keplerFp_neg, neg_neg, neg_div,
    neg_neg]

theorem newtonStep_neg (Mh e H : ℝ) :
    newtonStep (-Mh) e (-H) = -newtonStep Mh e H := by
  rw [newtonStep, newtonStep, newtonDelta_neg]
  ring

theorem solveIter_neg (Mh e tol : ℝ) :
    ∀ (n : ℕ) (H : ℝ), solveIter (-Mh) e tol n (-H) = -solveIter Mh e tol n H := by
  intro n
  induction n with
  | zero => intro H; rfl
  | succ n ih =>
    intro H
    rw [solveIter_succ, solveIter_succ, newtonDelta_neg, abs_neg]
    by_cases h : |newtonDelta Mh e H| < tol
    · rw [if_pos h, if_pos h, newtonStep_neg]
    · rw [if_neg h, if_neg h, newtonStep_neg, ih]

theorem initGuess_neg (Mh e : ℝ) : initGuess (-Mh) e = -initGuess Mh e := by
  rw [initGuess, initGuess, abs_neg]
  by_cases h : |Mh| > 1
  · rw [if_pos h, if_pos h, neg_div, Real.arsinh_neg]
  · rw [if_neg h, if_neg h, neg_div]

/-- C3: `solve_H` is an odd function of its first argument: for every real
`Mh` and every `e > 1`, `solve_H (-Mh) e = -(solve_H Mh e)`. -/
theorem solve_H_odd (Mh e tol : ℝ) (maxit : ℕ) (he : 1 < e) :
    solve_H (-Mh) e tol maxit = -solve_H Mh e tol maxit := by
  rw [solve_H, solve_H, initGuess_neg, solveIter_neg]

theorem solve_H_odd_witness :
    solve_H (-1) 2 1e-12 100 = -solve_H 1 2 1e-12 100 :=
  solve_H_odd 1 2 1e-12 100 (by norm_num)

/- ### Seed bifurcation -/

/-- C4: the Newton seed of `solve_H` is `arcsinh (Mh / e)` when `|Mh| > 1`
and `Mh / (e - 1)` when `|Mh| ≤ 1`, and `solve_H` iterates from that seed. -/
theorem solve_H_seed_bifurcation (Mh e : ℝ) :
    (1 < |Mh| → initGuess Mh e = Real.arsinh (Mh / e)) ∧
    (|Mh| ≤ 1 → initGuess Mh e = Mh / (e - 1)) ∧
    ∀ (tol : ℝ) (maxit : ℕ),
      solve_H Mh e tol maxit = solveIter Mh e tol maxit (initGuess Mh e) := by
  refine ⟨fun h => ?_, fun h => ?_, fun tol maxit => rfl⟩
  · rw [initGuess, if_pos h]
  · rw [initGuess, if_neg (not_lt.mpr h)]

theorem solve_H_seed_bifurcation_witness :
    initGuess 2 3 = Real.arsinh (2 / 3) ∧ initGuess (1/2) 3 = (1/2) / (3 - 1) :=
  ⟨(solve_H_seed_bifurcation 2 3).1 (by norm_num),
    (solve_H_seed_bifurcation (1/2) 3).2.1 (by rw [abs_le]; norm_num)⟩

/- ### Positivity of the Newton denominator -/

theorem keplerFp_pos_of_one_lt (e H : ℝ) (he : 1 < e) : 0 < keplerFp e H := by
  have h1 : (1 : ℝ) ≤ Real.cosh H := Real.one_le_cosh H
  have : e ≤ e * Real.cosh H := by nlinarith
  simp only [keplerFp]
  linarith

/-- C6: for `e > 1` the Newton denominator `f'(H) = e * cosh H - 1` is strictly
positive, hence nonzero, at every real `H`, so `dH = -f / fp` never divides by
zero for valid inputs. -/
theorem newton_denominator_pos (e H : ℝ) (he : 1 < e) :
    0 < keplerFp e H ∧ keplerFp e H ≠ 0 :=
  ⟨keplerFp_pos_of_one_lt e H he, ne_of_gt (keplerFp_pos_of_one_lt e H he)⟩

theorem newton_denominator_pos_witness :
    0 < keplerFp 2 0 ∧ keplerFp 2 0 ≠ 0 :=
  newton_denominator_pos 2 0 (by norm_num)

/- ### Shape of the Newton iteration -/

theorem solveIter_spec (Mh e tol : ℝ) :
    ∀ (n : ℕ) (H : ℝ),
      ∃ k, k ≤ n ∧ solveIter Mh e tol n H = (newtonStep Mh e)^[k] H ∧
        (∀ j, j + 1 < k → tol ≤ |newtonDelta Mh e ((newtonStep Mh e)^[j] H)|) ∧
        (k < n → ∃ j, j + 1 = k ∧
          |newtonDelta Mh e ((newtonStep Mh e)^[j] H)| < tol) := by
  intro n
  induction n with
  | zero =>
    intro H
    exact ⟨0, le_refl 0, rfl, fun j hj => absurd hj (by omega),
      fun h => absurd h (by omega)⟩
  | succ n ih =>
    intro H
    by_cases hd : |newtonDelta Mh e H| < tol
    · refine ⟨1, by omega, ?_, fun j hj => absurd hj (by omega), fun _ => ?_⟩
      · rw [solveIter_succ, if_pos hd, Function.iterate_one]
      · exact ⟨0, rfl, by simpa using hd⟩
    · obtain ⟨k, hk, hres, hbig, hstop⟩ := ih (newtonStep Mh e H)
      refine ⟨k + 1, by omega, ?_, ?_, ?_⟩
      · rw [solveIter_succ, if_neg hd, hres, ← Function.iterate_succ_apply]
      · intro j hj
        cases j with
        | zero => simpa using not_lt.mp hd
        | succ i =>
          rw [Function.iterate_succ_apply]
          exact hbig i (by omega)
      · intro hlt
        obtain ⟨j, hj1, hj2⟩ := hstop (by omega)
        refine ⟨j + 1, by omega, ?_⟩
        rw [Function.iterate_succ_apply]
        exact hj2

/-- C5: `solve_H` performs at most `maxit` Newton updates
`H <- H - f(H)/f'(H)`, stops as soon as an update has `|dH| < tol` (all
earlier updates having `|dH| ≥ tol`), and otherwise silently returns the
iterate reached after `maxit` updates; being a total function of its real
arguments, it returns a value for every real `Mh` and every `e > 1`. -/
theorem solve_H_newton_iteration (Mh e tol : ℝ) (maxit : ℕ) :
    (∀ x : ℝ, newtonStep Mh e x = x - keplerF Mh e x / keplerFp e x) ∧
    ∃ k, k ≤ maxit ∧
      solve_H Mh e tol maxit = (newtonStep Mh e)^[k] (initGuess Mh e) ∧
      (∀ j, j + 1 < k →
        tol ≤ |newtonDelta Mh e ((newtonStep Mh e)^[j] (initGuess Mh e))|) ∧
      (k < maxit → ∃ j, j + 1 = k ∧
        |newtonDelta Mh e ((newtonStep Mh e)^[j] (initGuess Mh e))| < tol) := by
  constructor
  · intro x
    rw [newtonStep, newtonDelta, neg_div, sub_eq_add_neg]
  · exact solveIter_spec Mh e tol maxit (initGuess Mh e)

/- ### Grid shape invariance -/

/-- C9: for every offset grid of length `N ≥ 1`, the propagated sample list
and the absolute-timestamp list both have length exactly `N`, and the entry at
each position is computed from the offset at the same position. -/
theorem grid_shape_invariance (a e tau epoch : ℝ) (ts : List ℝ)
    (hN : 1 ≤ ts.length) :
    (propagate a e tau ts).length = ts.length ∧
    (absTimes epoch ts).length = ts.length ∧
    (∀ i : ℕ, (propagate a e tau ts)[i]? = Option.map (mkSample a e tau) ts[i]?) ∧
    (∀ i : ℕ, (absTimes epoch ts)[i]? = Option.map (fun t => epoch + t) ts[i]?) := by
  refine ⟨List.length_map ts _, List.length_map ts _,
    fun i => List.getElem?_map _ ts i, fun i => List.getElem?_map _ ts i⟩

theorem grid_shape_invariance_witness :
    (propagate 1 1 1 [0]).length = ([0] : List ℝ).length :=
  (grid_shape_invariance 1 1 1 1 [0] (by norm_num)).1

/- ### Distance never below the perihelion distance -/

theorem rDist_ge_q (q a e H : ℝ) (hq : 0 < q) (ha : a < 0)
    (he : e = 1 + q / |a|) : q ≤ |a * (e * Real.cosh H - 1)| := by
  have ha' : 0 < |a| := abs_pos.mpr (ne_of_lt ha)
  have hqa : 0 < q / |a| := div_pos hq ha'
  have he1 : 1 < e := by rw [he]; linarith
  have hcosh : (1 : ℝ) ≤ Real.cosh H := Real.one_le_cosh H
  have hpos : 0 < e * Real.cosh H - 1 := by nlinarith
  rw [abs_mul, abs_of_pos hpos]
  have hstep : |a| * (e - 1) ≤ |a| * (e * Real.cosh H - 1) := by
    have : e - 1 ≤ e * Real.cosh H - 1 := by nlinarith
    exact mul_le_mul_of_nonneg_left this (le_of_lt ha')
  have hq_eq : |a| * (e - 1) = q := by
    rw [he]
    field_simp
  linarith

/-- C10: for every grid offset `t`, the computed heliocentric distance
satisfies `r ≥ q` whenever `q > 0`, `a < 0` and `e = 1 + q/|a|`: no sample is
ever closer to the Sun than the perihelion distance. -/
theorem sample_dist_ge_perihelion (q a e tau : ℝ) (hq : 0 < q) (ha : a < 0)
    (he : e = 1 + q / |a|) :
    ∀ t : ℝ, q ≤ (mkSample a e tau t).dist := fun t =>
  rDist_ge_q q a e _ hq ha he

theorem sample_dist_ge_perihelion_witness :
    (1.3565 : ℝ) ≤ (mkSample (-0.26549) (1 + 1.3565 / |(-0.26549 : ℝ)|) 1 5).dist :=
  sample_dist_ge_perihelion 1.3565 (-0.26549) _ 1 (by norm_num) (by norm_num)
    rfl 5

/- ### The perihelion sample -/

/-- C7: at offset `t = 0` (so `Mh = 0`, `H = 0`) with hyperbolic elements
`q > 0`, `a < 0`, `e = 1 + q/|a|`, the propagation yields distance exactly `q`
and perifocal coordinates `y = 0`, `x = a * (e - 1)`; moreover the distance of
every sample is non-negative. -/
theorem perihelion_sample_exact (q a e tau : ℝ) (hq : 0 < q) (ha : a < 0)
    (he : e = 1 + q / |a|) :
    (mkSample a e tau 0).dist = q ∧
    (mkSample a e tau 0).yPeri = 0 ∧
    (mkSample a e tau 0).xPeri = a * (e - 1) ∧
    ∀ t : ℝ, 0 ≤ (mkSample a e tau t).dist := by
  have ha' : 0 < |a| := abs_pos.mpr (ne_of_lt ha)
  have hqa : 0 < q / |a| := div_pos hq ha'
  have he1 : 1 < e := by rw [he]; linarith
  have hH : solveHdef (0 / tau) e = 0 := by
    rw [zero_div, solveHdef, solve_H_zero_eq e _ _ (by norm_num)]
  refine ⟨?_, ?_, ?_, fun t => abs_nonneg _⟩
  · show |a * (e * Real.cosh (solveHdef (0 / tau) e) - 1)| = q
    rw [hH, Real.cosh_zero, mul_one, abs_mul, abs_of_pos (by linarith : 0 < e - 1)]
    rw [he]
    field_simp
  · show a * Real.sqrt (e ^ 2 - 1) * Real.sinh (solveHdef (0 / tau) e) = 0
    rw [hH, Real.sinh_zero, mul_zero]
  · show a * (e - Real.cosh (solveHdef (0 / tau) e)) = a * (e - 1)
    rw [hH, Real.cosh_zero]

theorem perihelion_sample_exact_witness :
    (mkSample (-0.26549) (1 + 1.3565 / |(-0.26549 : ℝ)|) 1 0).dist = 1.3565 ∧
    (mkSample (-0.26549) (1 + 1.3565 / |(-0.26549 : ℝ)|) 1 0).yPeri = 0 ∧
    (mkSample (-0.26549) (1 + 1.3565 / |(-0.26549 : ℝ)|) 1 0).xPeri
      = -0.26549 * ((1 + 1.3565 / |(-0.26549 : ℝ)|) - 1) ∧
    ∀ t : ℝ, 0 ≤ (mkSample (-0.26549) (1 + 1.3565 / |(-0.26549 : ℝ)|) 1 t).dist :=
  perihelion_sample_exact 1.3565 (-0.26549) _ 1 (by norm_num) (by norm_num) rfl

/- ### Quantitative bounds on `exp`, `sinh`, `cosh` -/

theorem exp_ge_quarter_sq (x : ℝ) (hx : 0 ≤ x) : x ^ 2 / 4 ≤ Real.exp x := by
  have h := Real.add_one_le_exp (x / 2)
  have h2 : (0 : ℝ) ≤ x / 2 + 1 := by linarith
  have h3 : Real.exp x = Real.exp (x / 2) * Real.exp (x / 2) := by
    rw [← Real.exp_add]
    ring_nf
  have h4 : (x / 2 + 1) * (x / 2 + 1) ≤ Real.exp (x / 2) * Real.exp (x / 2) :=
    mul_le_mul h h h2 (le_of_lt (Real.exp_pos (x / 2)))
  nlinarith

theorem sinh_ge_sq (x : ℝ) (hx : 0 ≤ x) : x ^ 2 / 8 - 1 / 2 ≤ Real.sinh x := by
  rw [Real.sinh_eq]
  have h1 := exp_ge_quarter_sq x hx
  have h2 : Real.exp (-x) ≤ 1 := by
    rw [show (1 : ℝ) = Real.exp 0 by rw [Real.exp_zero]]
    exact Real.exp_le_exp.mpr (by linarith)
  linarith

theorem cosh_le_sinh_add_one (x : ℝ) (hx : 0 ≤ x) :
    Real.cosh x ≤ Real.sinh x + 1 := by
  have h := Real.cosh_sub_sinh x
  have h2 : Real.exp (-x) ≤ 1 := by
    rw [show (1 : ℝ) = Real.exp 0 by rw [Real.exp_zero]]
    exact Real.exp_le_exp.mpr (by linarith)
  linarith

/- ### Divergence of the Newton iteration at `Mh = 1`, `e = 1.001` -/

theorem residual_ge_one (H : ℝ) (hH : 800 ≤ H) : 1 ≤ keplerF 1 1.001 H := by
  have h0 : (0 : ℝ) ≤ H := by linarith
  have hs := sinh_ge_sq H h0
  rw [keplerF]
  nlinarith [sq_nonneg (H - 800)]

theorem diverge_step (H : ℝ) (hH : 800 ≤ H) :
    -2 ≤ newtonDelta 1 1.001 H ∧ newtonDelta 1 1.001 H ≤ 0 ∧
      ¬ |newtonDelta 1 1.001 H| < (1e-12 : ℝ) := by
  have h0 : (0 : ℝ) ≤ H := by linarith
  have hF : 1 ≤ keplerF 1 1.001 H := residual_ge_one H hH
  have hFp : 0 < keplerFp 1.001 H := keplerFp_pos_of_one_lt 1.001 H (by norm_num)
  have hsc : Real.sinh H < Real.cosh H := Real.sinh_lt_cosh H
  have hc1 : (1 : ℝ) ≤ Real.cosh H := Real.one_le_cosh H
  have hcs : Real.cosh H ≤ Real.sinh H + 1 := cosh_le_sinh_add_one H h0
  have hs := sinh_ge_sq H h0
  have hF2 : keplerF 1 1.001 H ≤ 2 * keplerFp 1.001 H := by
    rw [keplerF, keplerFp]
    nlinarith
  have hFtol : (1e-12 : ℝ) * keplerFp 1.001 H ≤ keplerF 1 1.001 H := by
    rw [keplerF, keplerFp]
    nlinarith [sq_nonneg (H - 800)]
  have hdivnn : 0 ≤ keplerF 1 1.001 H / keplerFp 1.001 H :=
    div_nonneg (by linarith) (le_of_lt hFp)
  refine ⟨?_, ?_, ?_⟩
  · have hd2 : keplerF 1 1.001 H / keplerFp 1.001 H ≤ 2 :=
      (div_le_iff₀ hFp).mpr (by linarith)
    rw [newtonDelta, neg_div]
    linarith
  · rw [newtonDelta, neg_div]
    linarith
  · intro hcon
    rw [newtonDelta, neg_div, abs_neg, abs_of_nonneg hdivnn] at hcon
    have := (div_lt_iff₀ hFp).mp hcon
    linarith

theorem diverge_iter : ∀ (n : ℕ) (H : ℝ), 800 + 2 * (n : ℝ) ≤ H →
    800 ≤ solveIter 1 1.001 1e-12 n H := by
  intro n
  induction n with
  | zero =>
    intro H h
    rw [solveIter_zero]
    push_cast at h
    linarith
  | succ n ih =>
    intro H h
    push_cast at h
    have hn : (0 : ℝ) ≤ (n : ℝ) := Nat.cast_nonneg n
    have hH : 800 ≤ H := by linarith
    obtain ⟨h1, h2, h3⟩ := diverge_step H hH
    rw [solveIter_succ, if_neg h3]
    apply ih
    rw [newtonStep]
    linarith

theorem solve_H_one_ge : 800 ≤ solve_H 1 1.001 1e-12 100 := by
  have hg : initGuess 1 1.001 = 1000 := by
    rw [initGuess, if_neg (by norm_num)]
    norm_num
  rw [solve_H, hg]
  exact diverge_iter 100 1000 (by norm_num)

/-- C1 counterexample: at `Mh = 1`, `e = 1.001` (with the default `tol`,
`maxit`), the seed `Mh/(e-1) = 1000` is so far from the root that the 100
Newton steps (each of size at most 2) cannot reach it, and the returned `H`
has Kepler residual at least 1, violating the claimed `< 1e-9` bound. -/
theorem residual_bound_counterexample :
    ¬ |1.001 * Real.sinh (solve_H 1 1.001 1e-12 100)
        - solve_H 1 1.001 1e-12 100 - 1| < (1e-9 : ℝ) := by
  intro hcon
  have h := residual_ge_one (solve_H 1 1.001 1e-12 100) solve_H_one_ge
  rw [keplerF] at h
  rw [abs_lt] at hcon
  linarith [hcon.2]

/-- C1 amended: the claimed residual bound holds at `Mh = 0` for every `e > 1`
with the default `tol` and `maxit` (there the residual is exactly 0); for
general real `Mh` it fails, since Newton need not converge within 100
iterations (see the counterexample at `Mh = 1`, `e = 1.001`). -/
theorem residual_bound_at_zero (e : ℝ) (he : 1 < e) :
    |keplerF 0 e (solve_H 0 e 1e-12 100)| < (1e-9 : ℝ) := by
  rw [solve_H_zero_eq e _ _ (by norm_num)]
  simp [keplerF]
  norm_num

theorem residual_bound_at_zero_witness :
    |keplerF 0 2 (solve_H 0 2 1e-12 100)| < (1e-9 : ℝ) :=
  residual_bound_at_zero 2 (by norm_num)

/- ### Tangent-line bound for `sinh` on the nonnegative axis -/

theorem sinh_tangent_le {x y : ℝ} (hx : 0 ≤ x) (hy : 0 ≤ y) :
    Real.sinh x + Real.cosh x * (y - x) ≤ Real.sinh y := by
  rcases lt_trichotomy x y with h | h | h
  · obtain ⟨c, hc, hceq⟩ := exists_hasDerivAt_eq_slope Real.sinh Real.cosh h
      Real.continuous_sinh.continuousOn (fun z _ => Real.hasDerivAt_sinh z)
    have hyx : 0 < y - x := sub_pos.mpr h
    rw [eq_div_iff (ne_of_gt hyx)] at hceq
    have hcx : Real.cosh x ≤ Real.cosh c := by
      rw [Real.cosh_le_cosh, abs_of_nonneg hx,
        abs_of_nonneg (le_trans hx (le_of_lt hc.1))]
      exact le_of_lt hc.1
    nlinarith
  · rw [h]
    simp
  · obtain ⟨c, hc, hceq⟩ := exists_hasDerivAt_eq_slope Real.sinh Real.cosh h
      Real.continuous_sinh.continuousOn (fun z _ => Real.hasDerivAt_sinh z)
    have hxy : 0 < x - y := sub_pos.mpr h
    rw [eq_div_iff (ne_of_gt hxy)] at hceq
    have hcx : Real.cosh c ≤ Real.cosh x := by
      rw [Real.cosh_le_cosh, abs_of_nonneg (le_trans hy (le_of_lt hc.1)),
        abs_of_nonneg (le_trans hy (le_of_lt (lt_trans hc.1 hc.2)))]
      exact le_of_lt hc.2
    nlinarith

theorem sinh_le_mul_cosh {x : ℝ} (hx : 0 ≤ x) :
    Real.sinh x ≤ x * Real.cosh x := by
  have h := sinh_tangent_le hx (le_refl 0)
  rw [Real.sinh_zero] at h
  nlinarith

theorem keplerF_tangent {Mh e x y : ℝ} (he : 0 ≤ e) (hx : 0 ≤ x) (hy : 0 ≤ y) :
    keplerF Mh e x + keplerFp e x * (y - x) ≤ keplerF Mh e y := by
  have h := sinh_tangent_le hx hy
  have h2 : e * (Real.sinh x + Real.cosh x * (y - x)) ≤ e * Real.sinh y :=
    mul_le_mul_of_nonneg_left h he
  rw [keplerF, keplerF, keplerFp]
  nlinarith

/- ### Bounded iterates at `Mh = 1.1`, `e = 1.001` -/

theorem converge_step {H : ℝ} (h0 : 0 ≤ H) (h1 : H ≤ 7 / 2)
    (hf : 0 ≤ keplerF 1.1 1.001 H) :
    0 ≤ newtonStep 1.1 1.001 H ∧ newtonStep 1.1 1.001 H ≤ 7 / 2 ∧
      0 ≤ keplerF 1.1 1.001 (newtonStep 1.1 1.001 H) := by
  have hFp : 0 < keplerFp 1.001 H := keplerFp_pos_of_one_lt 1.001 H (by norm_num)
  have hdle : newtonDelta 1.1 1.001 H ≤ 0 := by
    rw [newtonDelta, neg_div]
    have : 0 ≤ keplerF 1.1 1.001 H / keplerFp 1.001 H :=
      div_nonneg hf (le_of_lt hFp)
    linarith
  have hFH : keplerF 1.1 1.001 H ≤ H * keplerFp 1.001 H := by
    have hs := sinh_le_mul_cosh h0
    rw [keplerF, keplerFp]
    nlinarith
  have hdge : -H ≤ newtonDelta 1.1 1.001 H := by
    rw [newtonDelta, neg_div]
    have : keplerF 1.1 1.001 H / keplerFp 1.001 H ≤ H :=
      (div_le_iff₀ hFp).mpr hFH
    linarith
  have hstep0 : 0 ≤ newtonStep 1.1 1.001 H := by
    rw [newtonStep]
    linarith
  have hcancel : keplerFp 1.001 H * newtonDelta 1.1 1.001 H
      = -keplerF 1.1 1.001 H := by
    rw [newtonDelta]
    field_simp
    ring
  refine ⟨hstep0, by rw [newtonStep]; linarith, ?_⟩
  have htan := @keplerF_tangent 1.1 1.001 H (newtonStep 1.1 1.001 H)
    (by norm_num : (0 : ℝ) ≤ 1.001) h0 hstep0
  have hdiff : newtonStep 1.1 1.001 H - H = newtonDelta 1.1 1.001 H := by
    rw [newtonStep]
    ring
  rw [hdiff, hcancel] at htan
  linarith

theorem converge_iter : ∀ (n : ℕ) (H : ℝ), 0 ≤ H → H ≤ 7 / 2 →
    0 ≤ keplerF 1.1 1.001 H →
    0 ≤ solveIter 1.1 1.001 1e-12 n H ∧ solveIter 1.1 1.001 1e-12 n H ≤ 7 / 2 := by
  intro n
  induction n with
  | zero =>
    intro H h0 h1 _
    rw [solveIter_zero]
    exact ⟨h0, h1⟩
  | succ n ih =>
    intro H h0 h1 hf
    obtain ⟨g0, g1, gf⟩ := converge_step h0 h1 hf
    rw [solveIter_succ]
    by_cases hd : |newtonDelta 1.1 1.001 H| < (1e-12 : ℝ)
    · rw [if_pos hd]
      exact ⟨g0, g1⟩
    · rw [if_neg hd]
      exact ih (newtonStep 1.1 1.001 H) g0 g1 gf

theorem solve_H_11_bounds :
    0 ≤ solve_H 1.1 1.001 1e-12 100 ∧ solve_H 1.1 1.001 1e-12 100 ≤ 7 / 2 := by
  have hg : initGuess 1.1 1.001 = Real.arsinh (1.1 / 1.001) := by
    rw [initGuess, if_pos]
    rw [abs_of_pos] <;> norm_num
  set H0 := Real.arsinh (1.1 / 1.001) with hH0
  have hs : Real.sinh H0 = 1.1 / 1.001 := Real.sinh_arsinh _
  have hc : Real.cosh H0 = Real.sqrt (1 + (1.1 / 1.001) ^ 2) :=
    Real.cosh_arsinh _
  have h0pos : 0 < H0 := by
    rw [← Real.sinh_lt_sinh, Real.sinh_zero, hs]
    norm_num
  have h0le : H0 ≤ 1.1 := by
    have h := Real.self_lt_sinh_iff.mpr h0pos
    rw [hs] at h
    have : (1.1 : ℝ) / 1.001 ≤ 1.1 := by norm_num
    linarith
  have hcosh_lb : (1.47 : ℝ) ≤ Real.cosh H0 := by
    rw [hc, show (1.47 : ℝ) = Real.sqrt (1.47 ^ 2) from
      (Real.sqrt_sq (by norm_num)).symm]
    apply Real.sqrt_le_sqrt
    norm_num
  have hprod : (1.001 : ℝ) * (1.1 / 1.001) = 1.1 := by norm_num
  have hF0 : keplerF 1.1 1.001 H0 = -H0 := by
    rw [keplerF, hs, hprod]
    ring
  have hFp0 : (0.47 : ℝ) ≤ keplerFp 1.001 H0 := by
    rw [keplerFp]
    nlinarith
  have hFp0pos : 0 < keplerFp 1.001 H0 := lt_of_lt_of_le (by norm_num) hFp0
  have hd0 : newtonDelta 1.1 1.001 H0 = H0 / keplerFp 1.001 H0 := by
    rw [newtonDelta, hF0, neg_neg]
  have hd0nn : 0 ≤ newtonDelta 1.1 1.001 H0 := by
    rw [hd0]
    exact div_nonneg (le_of_lt h0pos) (le_of_lt hFp0pos)
  have hd0ub : newtonDelta 1.1 1.001 H0 ≤ 2.35 := by
    rw [hd0, div_le_iff₀ hFp0pos]
    nlinarith
  have hH1a : 0 ≤ newtonStep 1.1 1.001 H0 := by
    rw [newtonStep]
    linarith
  have hH1b : newtonStep 1.1 1.001 H0 ≤ 7 / 2 := by
    rw [newtonStep]
    linarith
  have hcancel : keplerFp 1.001 H0 * (H0 / keplerFp 1.001 H0) = H0 := by
    field_simp
  have hH1f : 0 ≤ keplerF 1.1 1.001 (newtonStep 1.1 1.001 H0) := by
    have htan := @keplerF_tangent 1.1 1.001 H0 (newtonStep 1.1 1.001 H0)
      (by norm_num : (0 : ℝ) ≤ 1.001) (le_of_lt h0pos) hH1a
    have hdiff : newtonStep 1.1 1.001 H0 - H0 = newtonDelta 1.1 1.001 H0 := by
      rw [newtonStep]
      ring
    rw [hdiff, hd0, hcancel, hF0] at htan
    linarith
  rw [solve_H, hg]
  rw [show (100 : ℕ) = 99 + 1 from rfl, solveIter_succ]
  by_cases hd : |newtonDelta 1.1 1.001 H0| < (1e-12 : ℝ)
  · rw [if_pos hd]
    exact ⟨hH1a, hH1b⟩
  · rw [if_neg hd]
    exact converge_iter 99 _ hH1a hH1b hH1f

/- ### Numeric upper bound on `cosh` over the bounded iterates -/

theorem exp_four_lt : Real.exp 4 < 55 := by
  have h1 : Real.exp 1 < 2.7182818286 := Real.exp_one_lt_d9
  have hp : (0 : ℝ) < Real.exp 1 := Real.exp_pos 1
  have he4 : Real.exp 4 = Real.exp 1 * Real.exp 1 * (Real.exp 1 * Real.exp 1) := by
    rw [← Real.exp_add, ← Real.exp_add]
    norm_num
  have h2 : Real.exp 1 * Real.exp 1 < 7.3890561 := by nlinarith
  have h2p : (0 : ℝ) < Real.exp 1 * Real.exp 1 := mul_pos hp hp
  rw [he4]
  nlinarith

theorem cosh_seven_half_lt : Real.cosh (7 / 2) < 28 := by
  rw [Real.cosh_eq]
  have h1 : Real.exp (7 / 2) ≤ Real.exp 4 := Real.exp_le_exp.mpr (by norm_num)
  have h2 := exp_four_lt
  have h3 : Real.exp (-(7 / 2)) ≤ 1 := by
    rw [show (1 : ℝ) = Real.exp 0 from (Real.exp_zero).symm]
    exact Real.exp_le_exp.mpr (by norm_num)
  linarith

/-- C8 counterexample: with hyperbolic elements `q = 0.001`, `a = -1`,
`e = 1.001 = 1 + q/|a|`, and the code's `tau` and `mu`, the offsets
`t1 = tau * 1 > 0` and `t2 = tau * 1.1 > t1` give samples whose computed
distances are NOT strictly increasing: the `t1` sample is produced by a
non-converged Newton run with a huge anomaly, so its distance exceeds the
`t2` distance by orders of magnitude. -/
theorem r_monotone_counterexample :
    0 < (0.001 : ℝ) ∧ (-1 : ℝ) < 0 ∧ (1.001 : ℝ) = 1 + 0.001 / |(-1 : ℝ)| ∧
    0 < tau_of (-1) mu * 1 ∧ tau_of (-1) mu * 1 < tau_of (-1) mu * 1.1 ∧
    ¬ (mkSample (-1) 1.001 (tau_of (-1) mu) (tau_of (-1) mu * 1)).dist
        < (mkSample (-1) 1.001 (tau_of (-1) mu) (tau_of (-1) mu * 1.1)).dist := by
  have htau : 0 < tau_of (-1) mu := by
    rw [tau_of, show |(-1 : ℝ)| ^ 3 / mu = 1 / mu by rw [abs_neg, abs_one]; ring]
    apply Real.sqrt_pos.mpr
    apply div_pos one_pos
    rw [mu, k_gauss]
    norm_num
  have htne : tau_of (-1) mu ≠ 0 := ne_of_gt htau
  have hm1 : tau_of (-1) mu * 1 / tau_of (-1) mu = 1 := by
    rw [mul_one, div_self htne]
  have hm2 : tau_of (-1) mu * 1.1 / tau_of (-1) mu = 1.1 := by
    rw [mul_comm, mul_div_assoc, div_self htne, mul_one]
  refine ⟨by norm_num, by norm_num, by rw [abs_neg, abs_one]; norm_num,
    by linarith [mul_one (tau_of (-1) mu)], by nlinarith, ?_⟩
  intro hcon
  have hd1 : (mkSample (-1) 1.001 (tau_of (-1) mu) (tau_of (-1) mu * 1)).dist
      = |(-1 : ℝ) * (1.001 * Real.cosh (solve_H 1 1.001 1e-12 100) - 1)| := by
    rw [mkSample, solveHdef, hm1]
  have hd2 : (mkSample (-1) 1.001 (tau_of (-1) mu) (tau_of (-1) mu * 1.1)).dist
      = |(-1 : ℝ) * (1.001 * Real.cosh (solve_H 1.1 1.001 1e-12 100) - 1)| := by
    rw [mkSample, solveHdef, hm2]
  -- lower bound for the `t1` distance
  have h800 := solve_H_one_ge
  have hs1 := sinh_ge_sq (solve_H 1 1.001 1e-12 100) (by linarith)
  have hsc1 := Real.sinh_lt_cosh (solve_H 1 1.001 1e-12 100)
  have hbig : (79998 : ℝ)
      ≤ 1.001 * Real.cosh (solve_H 1 1.001 1e-12 100) - 1 := by
    nlinarith [sq_nonneg (solve_H 1 1.001 1e-12 100 - 800)]
  -- upper bound for the `t2` distance
  obtain ⟨hb0, hb1⟩ := solve_H_11_bounds
  have hcle : Real.cosh (solve_H 1.1 1.001 1e-12 100) ≤ Real.cosh (7 / 2) := by
    rw [Real.cosh_le_cosh, abs_of_nonneg hb0,
      abs_of_pos (by norm_num : (0 : ℝ) < 7 / 2)]
    exact hb1
  have hc28 := cosh_seven_half_lt
  have hcpos : (1 : ℝ) ≤ Real.cosh (solve_H 1.1 1.001 1e-12 100) :=
    Real.one_le_cosh _
  have hsmall : (1.001 : ℝ) * Real.cosh (solve_H 1.1 1.001 1e-12 100) - 1 ≤ 28.1 := by
    nlinarith
  have hpos2 : (0 : ℝ) < 1.001 * Real.cosh (solve_H 1.1 1.001 1e-12 100) - 1 := by
    nlinarith
  rw [hd1, hd2, neg_one_mul, neg_one_mul, abs_neg, abs_neg,
    abs_of_pos (by linarith : (0 : ℝ)
      < 1.001 * Real.cosh (solve_H 1 1.001 1e-12 100) - 1),
    abs_of_pos hpos2] at hcon
  linarith

/- ### Strict monotonicity of the exact propagated distance -/

theorem kepler_mean_strictMono {e : ℝ} (he : 1 ≤ e) {u v : ℝ} (huv : u < v) :
    e * Real.sinh u - u < e * Real.sinh v - v := by
  have h1 := Real.sinh_add ((v + u) / 2) ((v - u) / 2)
  have h2 := Real.sinh_sub ((v + u) / 2) ((v - u) / 2)
  rw [show (v + u) / 2 + (v - u) / 2 = v by ring] at h1
  rw [show (v + u) / 2 - (v - u) / 2 = u by ring] at h2
  have hd : 0 < (v - u) / 2 := by linarith
  have hsd : (v - u) / 2 < Real.sinh ((v - u) / 2) := Real.self_lt_sinh_iff.mpr hd
  have hsd0 : 0 < Real.sinh ((v - u) / 2) := lt_trans hd hsd
  have hcs : (1 : ℝ) ≤ Real.cosh ((v + u) / 2) := Real.one_le_cosh _
  nlinarith [mul_le_mul_of_nonneg_right hcs (le_of_lt hsd0),
    mul_le_mul_of_nonneg_right he
      (le_of_lt (mul_pos hsd0 (lt_of_lt_of_le one_pos hcs)))]

theorem kepler_mean_nonneg {e H : ℝ} (he : 1 ≤ e) (h : 0 ≤ H) :
    0 ≤ e * Real.sinh H - H := by
  have hs : 0 ≤ Real.sinh H := Real.sinh_nonneg_iff.mpr h
  have hHs : H ≤ Real.sinh H := by
    rcases lt_or_eq_of_le h with hlt | heq
    · exact le_of_lt (Real.self_lt_sinh_iff.mpr hlt)
    · rw [← heq]
      simp
  nlinarith

theorem kepler_mean_abs {e : ℝ} (he : 1 ≤ e) (H : ℝ) :
    |e * Real.sinh H - H| = e * Real.sinh |H| - |H| := by
  rcases le_or_lt 0 H with h | h
  · rw [abs_of_nonneg h, abs_of_nonneg (kepler_mean_nonneg he h)]
  · have hneg : 0 ≤ -H := by linarith
    have h2 := kepler_mean_nonneg he hneg
    rw [Real.sinh_neg] at h2
    rw [abs_of_neg h, abs_of_nonpos (by linarith), Real.sinh_neg]
    ring

/-- C8 amended: with hyperbolic elements `q > 0`, `a < 0`, `e = 1 + q/|a|` and
`tau > 0`, the distance formula of the propagation is strictly increasing in
`|t|` (decreasing before perihelion, increasing after), with minimum value `q`
at `t = 0`, PROVIDED each sample's anomaly solves the Kepler equation
`e*sinh H - H = t/tau` exactly; the Newton solver's non-converged output can
violate this (see the counterexample). -/
theorem r_strict_mono_exact (q a e tau t1 t2 H1 H2 : ℝ)
    (hq : 0 < q) (ha : a < 0) (he : e = 1 + q / |a|) (htau : 0 < tau)
    (hlt : |t1| < |t2|)
    (hx1 : keplerF (t1 / tau) e H1 = 0) (hx2 : keplerF (t2 / tau) e H2 = 0) :
    rDist a e H1 < rDist a e H2 ∧ rDist a e 0 = q := by
  have ha' : 0 < |a| := abs_pos.mpr (ne_of_lt ha)
  have he1 : 1 < e := by
    have := div_pos hq ha'
    rw [he]
    linarith
  have hg1 : e * Real.sinh H1 - H1 = t1 / tau := by
    rw [keplerF] at hx1
    linarith
  have hg2 : e * Real.sinh H2 - H2 = t2 / tau := by
    rw [keplerF] at hx2
    linarith
  have habs : |t1 / tau| < |t2 / tau| := by
    rw [abs_div, abs_div, abs_of_pos htau]
    exact (div_lt_div_iff_of_pos_right htau).mpr hlt
  have hkey1 : e * Real.sinh |H1| - |H1| = |t1 / tau| := by
    rw [← kepler_mean_abs (le_of_lt he1), hg1]
  have hkey2 : e * Real.sinh |H2| - |H2| = |t2 / tau| := by
    rw [← kepler_mean_abs (le_of_lt he1), hg2]
  have hH : |H1| < |H2| := by
    by_contra hcon
    push_neg at hcon
    rcases lt_or_eq_of_le hcon with hlt2 | heq
    · have := kepler_mean_strictMono (le_of_lt he1) hlt2
      rw [hkey1, hkey2] at this
      linarith
    · rw [heq] at hkey2
      rw [hkey1] at hkey2
      linarith
  have hcosh : Real.cosh H1 < Real.cosh H2 := Real.cosh_lt_cosh.mpr hH
  have hc1 : (1 : ℝ) ≤ Real.cosh H1 := Real.one_le_cosh H1
  constructor
  · rw [rDist, rDist, abs_mul, abs_mul]
    have p1 : 0 < e * Real.cosh H1 - 1 := by nlinarith
    have p2 : 0 < e * Real.cosh H2 - 1 := by nlinarith
    rw [abs_of_pos p1, abs_of_pos p2]
    have hlt3 : e * Real.cosh H1 - 1 < e * Real.cosh H2 - 1 := by nlinarith
    exact mul_lt_mul_of_pos_left hlt3 ha'
  · rw [rDist, Real.cosh_zero, mul_one, abs_mul,
      abs_of_pos (by linarith : (0 : ℝ) < e - 1), he]
    field_simp

theorem r_strict_mono_exact_witness :
    rDist (-1) 2 0 < rDist (-1) 2 2 ∧ rDist (-1) 2 0 = 1 := by
  have hs2 : (2 : ℝ) < Real.sinh 2 := Real.self_lt_sinh_iff.mpr (by norm_num)
  refine r_strict_mono_exact 1 (-1) 2 1 0 (2 * Real.sinh 2 - 2) 0 2
    (by norm_num) (by norm_num) (by rw [abs_neg, abs_one]; norm_num)
    (by norm_num) ?_ ?_ ?_
  · rw [abs_zero]
    apply abs_pos.mpr
    intro hzero
    linarith
  · rw [keplerF, Real.sinh_zero, zero_div]
    ring
  · rw [keplerF, div_one]
    ring

end

end Atlas
